import Mathlib

/-!
Shallow embedding of the `caching-lib` Go repository: the storage backend
(`storage/storage.go`), the LRU eviction policy (`eviction/lru.go`), and the
cache coordinator (`cache/cache.go`).  Wall-clock time and durations are
modelled as integers (Go nanoseconds); every operation that consults the clock
takes an explicit `now` argument.  The Go map backing `memoryStorage` is
modelled as an association list with distinct keys; the LRU order list is a
`List K` with the most recently used key at the head (Go pushes to the front
of `container/list` and evicts from the back).
-/

set_option linter.unusedSectionVars false
set_option linter.unusedVariables false

namespace CachingLib

/-- Go `time.Second` and `time.Minute` in nanoseconds. -/
def second : Int := 1000000000

def minute : Int := 60 * second

/-- Go `24 * time.Hour` in nanoseconds, the default `MaxTTL`. -/
def day : Int := 24 * 60 * minute

/-- `storage.Item` from `storage/item.go`: a value plus optional expiry. -/
structure Item (V : Type) where
  value : V
  expiresAt : Int
  hasTTL : Bool
  deriving Repr, DecidableEq

namespace Item

/-- `Item.IsExpired`: `i.HasTTL && time.Now().After(i.ExpiresAt)`. -/
def isExpired (i : Item V) (now : Int) : Bool :=
  i.hasTTL && decide (now > i.expiresAt)

end Item

/-- The item produced by `itemPool.Get()` (fields reset) followed by
`item.Value = value; item.SetTTL(ttl)`: if `ttl != 0` the expiry is
`now + ttl` with `HasTTL = true`; otherwise `HasTTL = false` (the pooled
item's zero `ExpiresAt` is kept). -/
def mkItem (v : V) (now ttl : Int) : Item V :=
  if ttl ≠ 0 then ⟨v, now + ttl, true⟩ else ⟨v, 0, false⟩

variable {K V : Type} [DecidableEq K]

/-- The Go map `data map[K]*Item[V]` of `memoryStorage`, as an association
list (reachable stores keep their keys distinct). -/
abbrev Store (K V : Type) := List (K × Item V)

/-- Go map read `s.data[key]`. -/
def storeLookup : Store K V → K → Option (Item V)
  | [], _ => none
  | (k', i) :: rest, k => if k = k' then some i else storeLookup rest k

/-- Go map write `s.data[key] = item` (replace in place, else add). -/
def storeInsert : Store K V → K → Item V → Store K V
  | [], k, i => [(k, i)]
  | (k', i') :: rest, k, i =>
    if k = k' then (k, i) :: rest else (k', i') :: storeInsert rest k i

/-- Go map delete `delete(s.data, key)`. -/
def storeErase : Store K V → K → Store K V
  | [], _ => []
  | (k', i') :: rest, k => if k = k' then rest else (k', i') :: storeErase rest k

/-- Keys of the store, as reported by `memoryStorage.Keys`. -/
def storeKeys (st : Store K V) : List K := st.map Prod.fst

/-- `memoryStorage.Get`: a present entry that is expired is deleted
on-read and reported absent; otherwise the entry is returned. Returns the
result together with the (possibly purged) store. -/
def storageGet (st : Store K V) (k : K) (now : Int) :
    Option (Item V) × Store K V :=
  match storeLookup st k with
  | none => (none, st)
  | some item =>
    if item.isExpired now then (none, storeErase st k) else (some item, st)

/-- `memoryStorage.Delete`: remove and report whether the key was present
(expiry is not consulted). -/
def storageDelete (st : Store K V) (k : K) : Bool × Store K V :=
  match storeLookup st k with
  | some _ => (true, storeErase st k)
  | none => (false, st)

/-- `memoryStorage.CleanupExpired`: delete every expired entry, returning
the number removed. -/
def storageCleanupExpired (st : Store K V) (now : Int) : Int × Store K V :=
  let kept := st.filter (fun p => !p.2.isExpired now)
  (((st.length - kept.length : Nat) : Int), kept)

/-- `lruPolicy.Access` on the order list (head = front = most recent):
move an already-tracked key to the front, push an untracked key to the
front. -/
def lruAccess (order : List K) (k : K) : List K :=
  if k ∈ order then k :: order.erase k else k :: order

/-- `lruPolicy.Evict`: remove and return the key at the back of the order
list; `none` when empty. -/
def lruEvict (order : List K) : Option K × List K :=
  match order.getLast? with
  | none => (none, order)
  | some k => (some k, order.dropLast)

/-- `lruPolicy.Remove`: drop the key from the order list if tracked. -/
def lruRemove (order : List K) (k : K) : List K := order.erase k

/-- The coordinator `cache` struct of `cache/cache.go`, with the default
in-memory store and the default LRU policy, and its three statistics
counters. -/
structure CacheState (K V : Type) where
  store : Store K V
  order : List K
  hits : Int
  misses : Int
  evictions : Int
  capacity : Int
  defaultTTL : Int
  maxTTL : Int
  deriving Repr

/-- `cache.New(WithCapacity(capacity), WithDefaultTTL(defaultTTL),
WithMaxTTL(maxTTL))`: `WithCapacity` coerces `capacity <= 0` to 100; the
store and policy start empty and the counters at zero. -/
def freshCache (capacity defaultTTL maxTTL : Int) : CacheState K V :=
  { store := []
    order := []
    hits := 0
    misses := 0
    evictions := 0
    capacity := if capacity ≤ 0 then 100 else capacity
    defaultTTL := defaultTTL
    maxTTL := maxTTL }

/-- `cache.Get`. -/
def cacheGet (s : CacheState K V) (now : Int) (k : K) :
    Option V × CacheState K V :=
  match storageGet s.store k now with
  | (some item, store') =>
    if item.isExpired now then
      (none, { s with store := store', misses := s.misses + 1 })
    else
      (some item.value,
       { s with store := store', order := lruAccess s.order k,
                hits := s.hits + 1 })
  | (none, store') =>
    (none, { s with store := store', misses := s.misses + 1 })

/-- The eviction-then-insert tail shared verbatim by `cache.SetWithTTL` and
`cache.setBatchItem`: if the store is at or above capacity, ask the policy
for a victim, delete it from the store and increment `evictions`; then
insert the new item and notify the policy. -/
def setItemEvictInsert (s : CacheState K V) (k : K) (item : Item V) :
    CacheState K V :=
  let s1 :=
    if (s.store.length : Int) ≥ s.capacity then
      match lruEvict s.order with
      | (some victim, order') =>
        { s with store := (storageDelete s.store victim).2, order := order',
                 evictions := s.evictions + 1 }
      | (none, _) => s
    else s
  { s1 with store := storeInsert s1.store k item,
            order := lruAccess s1.order k }

/-- The common body of `cache.SetWithTTL` and `cache.setBatchItem` after
the item has been prepared: replace in place when the key exists and is
not expired, otherwise evict if needed and insert. -/
def setItemCore (s : CacheState K V) (now : Int) (k : K) (item : Item V) :
    CacheState K V :=
  match storageGet s.store k now with
  | (some existing, store1) =>
    if existing.isExpired now then
      setItemEvictInsert { s with store := store1 } k item
    else
      { s with store := storeInsert store1 k item,
               order := lruAccess s.order k }
  | (none, store1) => setItemEvictInsert { s with store := store1 } k item

/-- `cache.SetWithTTL`: clamp the TTL to `maxTTL`, prepare the item, then
run the shared set body. Always returns `true`. -/
def cacheSetWithTTL (s : CacheState K V) (now : Int) (k : K) (v : V)
    (ttl : Int) : Bool × CacheState K V :=
  let ttl1 := if ttl > s.maxTTL then s.maxTTL else ttl
  (true, setItemCore s now k (mkItem v now ttl1))

/-- `cache.Set`: `SetWithTTL` with the default TTL. -/
def cacheSet (s : CacheState K V) (now : Int) (k : K) (v : V) :
    Bool × CacheState K V :=
  cacheSetWithTTL s now k v s.defaultTTL

/-- `cache.setBatchItem`: like `SetWithTTL` with `defaultTTL` but without
the `maxTTL` clamp (the Go helper calls `item.SetTTL(c.defaultTTL)`
directly). -/
def cacheSetBatchItem (s : CacheState K V) (now : Int) (k : K) (v : V) :
    Bool × CacheState K V :=
  (true, setItemCore s now k (mkItem v now s.defaultTTL))

/-- `cache.Delete`: if the store removes the key, notify the policy. -/
def cacheDelete (s : CacheState K V) (k : K) : Bool × CacheState K V :=
  match storageDelete s.store k with
  | (true, store') =>
    (true, { s with store := store', order := lruRemove s.order k })
  | (false, _) => (false, s)

/-- `cache.Clear`: clear store and policy, zero the counters. -/
def cacheClear (s : CacheState K V) : CacheState K V :=
  { s with store := [], order := [], hits := 0, misses := 0, evictions := 0 }

/-- `cache.Size`: the store's size. -/
def cacheSize (s : CacheState K V) : Int := (s.store.length : Int)

/-- `cache.Keys`: the store's keys (no expiry filtering anywhere). -/
def cacheKeys (s : CacheState K V) : List K := storeKeys s.store

/-- `cache.Contains`: a store lookup (which may purge an expired entry
on-read); true iff found and not expired. Touches neither the policy nor
the counters. -/
def cacheContains (s : CacheState K V) (now : Int) (k : K) :
    Bool × CacheState K V :=
  match storageGet s.store k now with
  | (some item, store') =>
    (!item.isExpired now, { s with store := store' })
  | (none, store') => (false, { s with store := store' })

/-- Go map write `result[key] = value` for the `GetBatch` result map. -/
def resInsert : List (K × V) → K → V → List (K × V)
  | [], k, v => [(k, v)]
  | (k', v') :: rest, k, v =>
    if k = k' then (k, v) :: rest else (k', v') :: resInsert rest k v

/-- Go map read on the `GetBatch` result map. -/
def resLookup : List (K × V) → K → Option V
  | [], _ => none
  | (k', v') :: rest, k => if k = k' then some v' else resLookup rest k

/-- One iteration of the `cache.GetBatch` loop over the accumulated
result map (`.1`) and cache state (`.2`). -/
def getBatchStep (acc : List (K × V) × CacheState K V) (k : K) (now : Int) :
    List (K × V) × CacheState K V :=
  match storageGet acc.2.store k now with
  | (some item, store') =>
    if item.isExpired now then
      (acc.1, { acc.2 with store := store', misses := acc.2.misses + 1 })
    else
      (resInsert acc.1 k item.value,
       { acc.2 with store := store', order := lruAccess acc.2.order k,
                    hits := acc.2.hits + 1 })
  | (none, store') =>
    (acc.1, { acc.2 with store := store', misses := acc.2.misses + 1 })

/-- `cache.GetBatch`: fold the loop body over the input keys. -/
def cacheGetBatch (s : CacheState K V) (now : Int) (keys : List K) :
    List (K × V) × CacheState K V :=
  keys.foldl (fun acc k => getBatchStep acc k now) ([], s)

/-- `cache.SetBatch`: apply `setBatchItem` to each pair (the Go map
iteration order is unspecified; the model takes the pairs as a list) and
count successes. -/
def cacheSetBatch (s : CacheState K V) (now : Int) (items : List (K × V)) :
    Int × CacheState K V :=
  items.foldl
    (fun acc p =>
      (if (cacheSetBatchItem acc.2 now p.1 p.2).1 then acc.1 + 1 else acc.1,
       (cacheSetBatchItem acc.2 now p.1 p.2).2))
    (0, s)

/-- `cache.DeleteBatch`: apply `Delete` to each key and count removals. -/
def cacheDeleteBatch (s : CacheState K V) (keys : List K) :
    Int × CacheState K V :=
  keys.foldl
    (fun acc k =>
      (if (cacheDelete acc.2 k).1 then acc.1 + 1 else acc.1,
       (cacheDelete acc.2 k).2))
    (0, s)

/-- A public mutating-or-reading cache operation, with the wall-clock
instant at which it runs. -/
inductive Op (K V : Type) where
  | get (now : Int) (k : K)
  | set (now : Int) (k : K) (v : V)
  | setWithTTL (now : Int) (k : K) (v : V) (ttl : Int)
  | del (k : K)
  | clear
  | contains (now : Int) (k : K)
  | getBatch (now : Int) (keys : List K)
  | setBatch (now : Int) (items : List (K × V))
  | deleteBatch (keys : List K)
  deriving Repr

/-- Run one public operation, keeping only the state. -/
def step (s : CacheState K V) : Op K V → CacheState K V
  | .get now k => (cacheGet s now k).2
  | .set now k v => (cacheSet s now k v).2
  | .setWithTTL now k v ttl => (cacheSetWithTTL s now k v ttl).2
  | .del k => (cacheDelete s k).2
  | .clear => cacheClear s
  | .contains now k => (cacheContains s now k).2
  | .getBatch now keys => (cacheGetBatch s now keys).2
  | .setBatch now items => (cacheSetBatch s now items).2
  | .deleteBatch keys => (cacheDeleteBatch s keys).2

/-- Run a sequence of public operations. -/
def runOps (s : CacheState K V) (ops : List (Op K V)) : CacheState K V :=
  ops.foldl step s

/-! ### Lemmas about the store primitives -/

theorem length_storeKeys (st : Store K V) : (storeKeys st).length = st.length := by
  simp [storeKeys]

theorem storeKeys_cons (p : K × Item V) (st : Store K V) :
    storeKeys (p :: st) = p.1 :: storeKeys st := rfl

theorem mem_storeKeys_cons {p : K × Item V} {st : Store K V} {k : K} :
    k ∈ storeKeys (p :: st) ↔ k = p.1 ∨ k ∈ storeKeys st := by
  rw [storeKeys_cons]
  exact List.mem_cons

theorem storeLookup_eq_none_iff {st : Store K V} {k : K} :
    storeLookup st k = none ↔ k ∉ storeKeys st := by
  induction st with
  | nil => simp [storeLookup, storeKeys]
  | cons p rest ih =>
    obtain ⟨k', i⟩ := p
    by_cases h : k = k' <;> simp [storeLookup, storeKeys, h, ih]

theorem mem_storeKeys_of_lookup_some {st : Store K V} {k : K} {i : Item V}
    (h : storeLookup st k = some i) : k ∈ storeKeys st := by
  by_contra hmem
  rw [← storeLookup_eq_none_iff] at hmem
  rw [h] at hmem
  cases hmem

theorem storeLookup_mem {st : Store K V} {k : K} {i : Item V}
    (h : storeLookup st k = some i) : (k, i) ∈ st := by
  induction st with
  | nil => cases h
  | cons p rest ih =>
    obtain ⟨k', i'⟩ := p
    by_cases hk : k = k'
    · rw [storeLookup, if_pos hk] at h
      cases h
      subst hk
      exact List.mem_cons_self _ _
    · rw [storeLookup, if_neg hk] at h
      exact List.mem_cons_of_mem _ (ih h)

theorem storeKeys_storeInsert_of_mem {st : Store K V} {k : K} (i : Item V)
    (h : k ∈ storeKeys st) : storeKeys (storeInsert st k i) = storeKeys st := by
  induction st with
  | nil => simp [storeKeys] at h
  | cons p rest ih =>
    obtain ⟨k', i'⟩ := p
    by_cases hk : k = k'
    · subst hk
      rw [storeInsert, if_pos rfl, storeKeys_cons, storeKeys_cons]
    · have hmem : k ∈ storeKeys rest := by
        rcases mem_storeKeys_cons.1 h with h1 | h1
        · exact absurd h1 hk
        · exact h1
      rw [storeInsert, if_neg hk, storeKeys_cons, storeKeys_cons, ih hmem]

theorem storeKeys_storeInsert_of_not_mem {st : Store K V} {k : K} (i : Item V)
    (h : k ∉ storeKeys st) : storeKeys (storeInsert st k i) = storeKeys st ++ [k] := by
  induction st with
  | nil => simp [storeInsert, storeKeys]
  | cons p rest ih =>
    obtain ⟨k', i'⟩ := p
    have hk : k ≠ k' := by
      intro hkk
      exact h (mem_storeKeys_cons.2 (Or.inl hkk))
    have hmem : k ∉ storeKeys rest := by
      intro hkk
      exact h (mem_storeKeys_cons.2 (Or.inr hkk))
    rw [storeInsert, if_neg hk, storeKeys_cons, storeKeys_cons, ih hmem,
      List.cons_append]

theorem mem_storeInsert {st : Store K V} {k : K} {i : Item V} {p : K × Item V}
    (h : p ∈ storeInsert st k i) : p = (k, i) ∨ p ∈ st := by
  induction st with
  | nil => simpa [storeInsert] using h
  | cons q rest ih =>
    obtain ⟨k', i'⟩ := q
    by_cases hk : k = k'
    · rw [storeInsert, if_pos hk] at h
      rcases List.mem_cons.1 h with h1 | h1
      · exact Or.inl h1
      · exact Or.inr (List.mem_cons_of_mem _ h1)
    · rw [storeInsert, if_neg hk] at h
      rcases List.mem_cons.1 h with h1 | h1
      · exact Or.inr (h1 ▸ List.mem_cons_self _ _)
      · rcases ih h1 with h2 | h2
        · exact Or.inl h2
        · exact Or.inr (List.mem_cons_of_mem _ h2)

theorem storeKeys_storeErase (st : Store K V) (k : K) :
    storeKeys (storeErase st k) = (storeKeys st).erase k := by
  induction st with
  | nil => simp [storeErase, storeKeys]
  | cons p rest ih =>
    obtain ⟨k', i'⟩ := p
    by_cases hk : k = k'
    · subst hk
      simp [storeErase, storeKeys, List.erase_cons_head]
    · have : storeKeys ((k', i') :: rest) = k' :: storeKeys rest := rfl
      rw [storeErase, if_neg hk, this, List.erase_cons_tail, ← ih]
      · rfl
      · simp [Ne.symm hk]

theorem storeErase_sublist (st : Store K V) (k : K) :
    List.Sublist (storeErase st k) st := by
  induction st with
  | nil => simp [storeErase]
  | cons p rest ih =>
    obtain ⟨k', i'⟩ := p
    by_cases hk : k = k'
    · rw [storeErase, if_pos hk]
      exact List.sublist_cons_self _ _
    · rw [storeErase, if_neg hk]
      exact List.Sublist.cons₂ _ ih

theorem storeErase_of_not_mem {st : Store K V} {k : K} (h : k ∉ storeKeys st) :
    storeErase st k = st := by
  induction st with
  | nil => rfl
  | cons p rest ih =>
    obtain ⟨k', i'⟩ := p
    have hk : k ≠ k' := fun hkk => h (mem_storeKeys_cons.2 (Or.inl hkk))
    have hmem : k ∉ storeKeys rest := fun hkk => h (mem_storeKeys_cons.2 (Or.inr hkk))
    rw [storeErase, if_neg hk, ih hmem]

theorem length_storeErase_of_mem {st : Store K V} {k : K}
    (h : k ∈ storeKeys st) : (storeErase st k).length + 1 = st.length := by
  have h1 : (storeErase st k).length = ((storeKeys st).erase k).length := by
    rw [← length_storeKeys, storeKeys_storeErase]
  rw [List.length_erase_of_mem h] at h1
  have h2 : 0 < (storeKeys st).length := List.length_pos.2 (List.ne_nil_of_mem h)
  have h3 := length_storeKeys st
  omega

theorem storeLookup_isSome_of_mem {st : Store K V} {k : K}
    (h : k ∈ storeKeys st) : ∃ i, storeLookup st k = some i := by
  cases hl : storeLookup st k with
  | none => exact absurd (storeLookup_eq_none_iff.1 hl) (not_not_intro h)
  | some i => exact ⟨i, rfl⟩

theorem storeLookup_storeInsert_self (st : Store K V) (k : K) (i : Item V) :
    storeLookup (storeInsert st k i) k = some i := by
  induction st with
  | nil => simp [storeInsert, storeLookup]
  | cons p rest ih =>
    obtain ⟨k', i'⟩ := p
    by_cases hk : k = k'
    · rw [storeInsert, if_pos hk, storeLookup, if_pos rfl]
    · rw [storeInsert, if_neg hk, storeLookup, if_neg hk, ih]

theorem storeLookup_storeErase_of_ne {st : Store K V} {k a : K} (hne : a ≠ k) :
    storeLookup (storeErase st k) a = storeLookup st a := by
  induction st with
  | nil => rfl
  | cons p rest ih =>
    obtain ⟨k', i'⟩ := p
    by_cases hk : k = k'
    · subst hk
      rw [storeErase, if_pos rfl, storeLookup, if_neg hne]
    · by_cases ha : a = k'
      · rw [storeErase, if_neg hk, storeLookup, if_pos ha, storeLookup, if_pos ha]
      · rw [storeErase, if_neg hk, storeLookup, if_neg ha, storeLookup, if_neg ha, ih]

theorem storeLookup_storeErase_self {st : Store K V} {k : K}
    (hnd : (storeKeys st).Nodup) : storeLookup (storeErase st k) k = none := by
  rw [storeLookup_eq_none_iff, storeKeys_storeErase]
  exact hnd.not_mem_erase

/-! ### Case equations for `storageGet` and `storageDelete` -/

theorem storageGet_none {st : Store K V} {k : K} (now : Int)
    (hl : storeLookup st k = none) : storageGet st k now = (none, st) := by
  unfold storageGet
  rw [hl]

theorem storageGet_live {st : Store K V} {k : K} {i : Item V} {now : Int}
    (hl : storeLookup st k = some i) (he : i.isExpired now = false) :
    storageGet st k now = (some i, st) := by
  unfold storageGet
  rw [hl]
  simp [he]

theorem storageGet_expired {st : Store K V} {k : K} {i : Item V} {now : Int}
    (hl : storeLookup st k = some i) (he : i.isExpired now = true) :
    storageGet st k now = (none, storeErase st k) := by
  unfold storageGet
  rw [hl]
  simp [he]

theorem storageDelete_of_mem {st : Store K V} {k : K} {i : Item V}
    (hl : storeLookup st k = some i) :
    storageDelete st k = (true, storeErase st k) := by
  unfold storageDelete
  rw [hl]

theorem storageDelete_of_not_mem {st : Store K V} {k : K}
    (hl : storeLookup st k = none) : storageDelete st k = (false, st) := by
  unfold storageDelete
  rw [hl]

/-- Membership in a store all of whose items carry no TTL yields an
unexpired item, so the on-read purge never fires. -/
theorem storageGet_of_hasTTL_false {st : Store K V} {k : K} {now : Int}
    (h : ∀ p ∈ st, p.2.hasTTL = false) :
    storageGet st k now = (storeLookup st k, st) := by
  cases hl : storeLookup st k with
  | none => exact storageGet_none now hl
  | some item =>
    have hm : (k, item) ∈ st := storeLookup_mem hl
    have hfalse : item.hasTTL = false := h _ hm
    exact storageGet_live hl (by simp [Item.isExpired, hfalse])

/-! ### Lemmas about the LRU order list -/

theorem mem_lruAccess {order : List K} {k a : K} :
    a ∈ lruAccess order k ↔ a = k ∨ a ∈ order := by
  unfold lruAccess
  by_cases hk : k ∈ order
  · rw [if_pos hk]
    by_cases hak : a = k
    · simp [hak, hk]
    · rw [List.mem_cons, List.mem_erase_of_ne hak]
  · rw [if_neg hk]
    exact List.mem_cons

theorem nodup_lruAccess {order : List K} (h : order.Nodup) (k : K) :
    (lruAccess order k).Nodup := by
  unfold lruAccess
  by_cases hk : k ∈ order
  · rw [if_pos hk]
    exact List.nodup_cons.2 ⟨h.not_mem_erase, h.erase k⟩
  · rw [if_neg hk]
    exact List.nodup_cons.2 ⟨hk, h⟩

theorem lruEvict_of_ne_nil {order : List K} (h : order ≠ []) :
    lruEvict order = (some (order.getLast h), order.dropLast) := by
  unfold lruEvict
  rw [List.getLast?_eq_getLast_of_ne_nil h]

theorem mem_dropLast_of_nodup {order : List K} (h : order ≠ [])
    (hn : order.Nodup) {a : K} :
    a ∈ order.dropLast ↔ a ∈ order ∧ a ≠ order.getLast h := by
  have hdecomp : order.dropLast ++ [order.getLast h] = order :=
    List.dropLast_append_getLast h
  have hnotmem : order.getLast h ∉ order.dropLast := by
    have hn' : (order.dropLast ++ [order.getLast h]).Nodup := by
      rw [hdecomp]
      exact hn
    have hdisj := (List.nodup_append.1 hn').2.2
    intro hmem
    exact hdisj hmem (List.mem_singleton_self _)
  constructor
  · intro hmem
    refine ⟨?_, ?_⟩
    · rw [← hdecomp]
      exact List.mem_append_left _ hmem
    · intro heq
      exact hnotmem (heq ▸ hmem)
  · rintro ⟨hmem, hne⟩
    rw [← hdecomp] at hmem
    rcases List.mem_append.1 hmem with h1 | h1
    · exact h1
    · exact absurd (List.mem_singleton.1 h1) hne

theorem length_storeInsert_of_mem {st : Store K V} {k : K} (i : Item V)
    (h : k ∈ storeKeys st) : (storeInsert st k i).length = st.length := by
  have hkeys := storeKeys_storeInsert_of_mem i h
  have h1 := length_storeKeys (storeInsert st k i)
  have h2 := length_storeKeys st
  rw [hkeys] at h1
  omega

theorem length_storeInsert_of_not_mem {st : Store K V} {k : K} (i : Item V)
    (h : k ∉ storeKeys st) : (storeInsert st k i).length = st.length + 1 := by
  have hkeys := storeKeys_storeInsert_of_not_mem i h
  have h1 := length_storeKeys (storeInsert st k i)
  have h2 := length_storeKeys st
  rw [hkeys, List.length_append, List.length_singleton] at h1
  omega

/-! ### Lemmas about the `GetBatch` result map -/

theorem resLookup_eq_none_iff {res : List (K × V)} {k : K} :
    resLookup res k = none ↔ k ∉ res.map Prod.fst := by
  induction res with
  | nil => simp [resLookup]
  | cons p rest ih =>
    obtain ⟨k', v'⟩ := p
    by_cases h : k = k' <;> simp [resLookup, h, ih]

theorem resLookup_resInsert_self (res : List (K × V)) (k : K) (v : V) :
    resLookup (resInsert res k v) k = some v := by
  induction res with
  | nil => simp [resInsert, resLookup]
  | cons p rest ih =>
    obtain ⟨k', v'⟩ := p
    by_cases hk : k = k'
    · rw [resInsert, if_pos hk, resLookup, if_pos rfl]
    · rw [resInsert, if_neg hk, resLookup, if_neg hk, ih]

theorem resLookup_resInsert_of_ne {res : List (K × V)} {k a : K} (v : V)
    (hne : a ≠ k) : resLookup (resInsert res k v) a = resLookup res a := by
  induction res with
  | nil => simp [resInsert, resLookup, hne]
  | cons p rest ih =>
    obtain ⟨k', v'⟩ := p
    by_cases hk : k = k'
    · rw [resInsert, if_pos hk, resLookup, resLookup]
      subst hk
      rw [if_neg hne, if_neg hne]
    · by_cases ha : a = k'
      · rw [resInsert, if_neg hk, resLookup, if_pos ha, resLookup, if_pos ha]
      · rw [resInsert, if_neg hk, resLookup, if_neg ha, resLookup, if_neg ha, ih]

theorem resKeys_resInsert_of_mem {res : List (K × V)} {k : K} (v : V)
    (h : k ∈ res.map Prod.fst) :
    (resInsert res k v).map Prod.fst = res.map Prod.fst := by
  induction res with
  | nil => simp at h
  | cons p rest ih =>
    obtain ⟨k', v'⟩ := p
    by_cases hk : k = k'
    · subst hk
      rw [resInsert, if_pos rfl, List.map_cons, List.map_cons]
    · have hmem : k ∈ rest.map Prod.fst := by
        rcases List.mem_cons.1 h with h1 | h1
        · exact absurd h1 hk
        · exact h1
      rw [resInsert, if_neg hk, List.map_cons, List.map_cons, ih hmem]

theorem resKeys_resInsert_of_not_mem {res : List (K × V)} {k : K} (v : V)
    (h : k ∉ res.map Prod.fst) :
    (resInsert res k v).map Prod.fst = res.map Prod.fst ++ [k] := by
  induction res with
  | nil => simp [resInsert]
  | cons p rest ih =>
    obtain ⟨k', v'⟩ := p
    have hk : k ≠ k' := by
      intro hkk
      exact h (by rw [List.map_cons]; exact List.mem_cons.2 (Or.inl hkk))
    have hmem : k ∉ rest.map Prod.fst := by
      intro hkk
      exact h (by rw [List.map_cons]; exact List.mem_cons.2 (Or.inr hkk))
    rw [resInsert, if_neg hk, List.map_cons, List.map_cons, ih hmem,
      List.cons_append]

theorem nodup_resKeys_resInsert {res : List (K × V)} {k : K} (v : V)
    (h : (res.map Prod.fst).Nodup) : ((resInsert res k v).map Prod.fst).Nodup := by
  by_cases hk : k ∈ res.map Prod.fst
  · rw [resKeys_resInsert_of_mem v hk]
    exact h
  · rw [resKeys_resInsert_of_not_mem v hk]
    exact List.Nodup.append h (List.nodup_singleton k)
      (fun a ha hb => hk ((List.mem_singleton.1 hb) ▸ ha))

/-! ### Case equations for the coordinator operations -/

theorem cacheGet_none {s : CacheState K V} {k : K} (now : Int)
    (hl : storeLookup s.store k = none) :
    cacheGet s now k = (none, { s with misses := s.misses + 1 }) := by
  unfold cacheGet
  rw [storageGet_none now hl]

theorem cacheGet_live {s : CacheState K V} {k : K} {i : Item V} {now : Int}
    (hl : storeLookup s.store k = some i) (he : i.isExpired now = false) :
    cacheGet s now k =
      (some i.value,
       { s with order := lruAccess s.order k, hits := s.hits + 1 }) := by
  unfold cacheGet
  rw [storageGet_live hl he]
  simp [he]

theorem cacheGet_expired {s : CacheState K V} {k : K} {i : Item V} {now : Int}
    (hl : storeLookup s.store k = some i) (he : i.isExpired now = true) :
    cacheGet s now k =
      (none, { s with store := storeErase s.store k,
                      misses := s.misses + 1 }) := by
  unfold cacheGet
  rw [storageGet_expired hl he]

theorem cacheContains_none {s : CacheState K V} {k : K} (now : Int)
    (hl : storeLookup s.store k = none) : cacheContains s now k = (false, s) := by
  unfold cacheContains
  rw [storageGet_none now hl]

theorem cacheContains_live {s : CacheState K V} {k : K} {i : Item V} {now : Int}
    (hl : storeLookup s.store k = some i) (he : i.isExpired now = false) :
    cacheContains s now k = (true, s) := by
  unfold cacheContains
  rw [storageGet_live hl he]
  simp [he]

theorem cacheContains_expired {s : CacheState K V} {k : K} {i : Item V} {now : Int}
    (hl : storeLookup s.store k = some i) (he : i.isExpired now = true) :
    cacheContains s now k = (false, { s with store := storeErase s.store k }) := by
  unfold cacheContains
  rw [storageGet_expired hl he]

theorem cacheDelete_some {s : CacheState K V} {k : K} {i : Item V}
    (hl : storeLookup s.store k = some i) :
    cacheDelete s k =
      (true, { s with store := storeErase s.store k,
                      order := s.order.erase k }) := by
  unfold cacheDelete
  rw [storageDelete_of_mem hl]
  rfl

theorem cacheDelete_none {s : CacheState K V} {k : K}
    (hl : storeLookup s.store k = none) : cacheDelete s k = (false, s) := by
  unfold cacheDelete
  rw [storageDelete_of_not_mem hl]

theorem setItemEvictInsert_noevict {s : CacheState K V} {k : K} {item : Item V}
    (hcap : ¬ ((s.store.length : Int) ≥ s.capacity)) :
    setItemEvictInsert s k item =
      { s with store := storeInsert s.store k item,
               order := lruAccess s.order k } := by
  unfold setItemEvictInsert
  rw [if_neg hcap]

theorem setItemEvictInsert_evict {s : CacheState K V} {k : K} {item : Item V}
    {victim : K} {order' : List K}
    (hcap : (s.store.length : Int) ≥ s.capacity)
    (hev : lruEvict s.order = (some victim, order')) :
    setItemEvictInsert s k item =
      { s with store := storeInsert (storageDelete s.store victim).2 k item,
               order := lruAccess order' k,
               evictions := s.evictions + 1 } := by
  unfold setItemEvictInsert
  rw [if_pos hcap, hev]

theorem setItemCore_of_lookup_none {s : CacheState K V} {k : K} {item : Item V}
    (now : Int) (hl : storeLookup s.store k = none) :
    setItemCore s now k item = setItemEvictInsert s k item := by
  unfold setItemCore
  rw [storageGet_none now hl]

theorem setItemCore_replace {s : CacheState K V} {k : K} {item ex : Item V}
    {now : Int} (hl : storeLookup s.store k = some ex)
    (he : ex.isExpired now = false) :
    setItemCore s now k item =
      { s with store := storeInsert s.store k item,
               order := lruAccess s.order k } := by
  unfold setItemCore
  rw [storageGet_live hl he]
  simp [he]

/-! ### The coordinator invariant for expiry-free histories

When every write carries a zero TTL (`default_ttl = 0`, `max_ttl ≥ 0`, every
`set_with_ttl` called with `ttl = 0`), no stored item ever expires, the
on-read purge never fires, and the policy's tracked set stays equal to the
store's key set. -/

def NoTTLStore (st : Store K V) : Prop := ∀ p ∈ st, p.2.hasTTL = false

theorem noTTL_storeInsert {st : Store K V} {k : K} {i : Item V}
    (h : NoTTLStore st) (hi : i.hasTTL = false) :
    NoTTLStore (storeInsert st k i) := by
  intro p hp
  rcases mem_storeInsert hp with h1 | h1
  · rw [h1]
    exact hi
  · exact h _ h1

theorem noTTL_storeErase {st : Store K V} (k : K) (h : NoTTLStore st) :
    NoTTLStore (storeErase st k) :=
  fun p hp => h _ ((storeErase_sublist st k).subset hp)

theorem noTTLStore_isExpired_false {st : Store K V} {k : K} {i : Item V}
    (h : NoTTLStore st) (hl : storeLookup st k = some i) (now : Int) :
    i.isExpired now = false := by
  have : i.hasTTL = false := h _ (storeLookup_mem hl)
  simp [Item.isExpired, this]

theorem mkItem_zero_hasTTL (v : V) (now : Int) :
    (mkItem v now 0).hasTTL = false := by
  simp [mkItem]

/-- The data invariant maintained by every public operation of an
expiry-free history: capacity is the configured one and positive, both key
collections are duplicate-free and contain the same keys, the store never
exceeds capacity, and no stored item carries a TTL. -/
structure Inv (cap : Int) (s : CacheState K V) : Prop where
  capEq : s.capacity = cap
  capPos : 1 ≤ s.capacity
  nodupKeys : (storeKeys s.store).Nodup
  nodupOrder : s.order.Nodup
  sameKeys : ∀ a, a ∈ s.order ↔ a ∈ storeKeys s.store
  sizeLe : (s.store.length : Int) ≤ s.capacity
  noTTL : NoTTLStore s.store
  dttlZero : s.defaultTTL = 0
  mttlNonneg : 0 ≤ s.maxTTL

theorem inv_counters {cap : Int} {s : CacheState K V} (hs : Inv cap s)
    (h m e : Int) :
    Inv cap { s with hits := h, misses := m, evictions := e } := by
  obtain ⟨h1, h2, h3, h4, h5, h6, h7, h8, h9⟩ := hs
  exact ⟨h1, h2, h3, h4, h5, h6, h7, h8, h9⟩

theorem inv_access {cap : Int} {s : CacheState K V} (hs : Inv cap s) {k : K}
    (hk : k ∈ storeKeys s.store) (h m e : Int) :
    Inv cap { s with order := lruAccess s.order k,
                     hits := h, misses := m, evictions := e } := by
  refine ⟨hs.capEq, hs.capPos, hs.nodupKeys, nodup_lruAccess hs.nodupOrder k,
    ?_, hs.sizeLe, hs.noTTL, hs.dttlZero, hs.mttlNonneg⟩
  intro a
  show a ∈ lruAccess s.order k ↔ a ∈ storeKeys s.store
  rw [mem_lruAccess, hs.sameKeys a]
  constructor
  · rintro (rfl | h1)
    · exact hk
    · exact h1
  · exact Or.inr

theorem inv_setItemEvictInsert {cap : Int} {s : CacheState K V} (hs : Inv cap s)
    {k : K} (hk : k ∉ storeKeys s.store) {item : Item V}
    (hitem : item.hasTTL = false) :
    Inv cap (setItemEvictInsert s k item) := by
  by_cases hcap : (s.store.length : Int) ≥ s.capacity
  · -- the store is full; by `sameKeys` the order list is nonempty
    have hlen : 0 < s.store.length := by
      have := hs.capPos
      omega
    have hkeysne : storeKeys s.store ≠ [] := by
      intro h0
      have := length_storeKeys s.store
      rw [h0] at this
      simp at this
      omega
    have hordne : s.order ≠ [] := by
      intro h0
      obtain ⟨a, ha⟩ := List.exists_mem_of_ne_nil _ hkeysne
      have := (hs.sameKeys a).2 ha
      rw [h0] at this
      cases this
    have hev := lruEvict_of_ne_nil hordne
    have hvmemord : s.order.getLast hordne ∈ s.order := List.getLast_mem hordne
    have hvmemkeys : s.order.getLast hordne ∈ storeKeys s.store :=
      (hs.sameKeys _).1 hvmemord
    obtain ⟨i, hi⟩ := storeLookup_isSome_of_mem hvmemkeys
    rw [setItemEvictInsert_evict hcap hev, storageDelete_of_mem hi]
    have hknotin2 : k ∉ storeKeys (storeErase s.store (s.order.getLast hordne)) := by
      rw [storeKeys_storeErase]
      intro hmem
      exact hk (List.erase_subset _ _ hmem)
    have hkeys2 : storeKeys (storeInsert (storeErase s.store (s.order.getLast hordne)) k item)
        = (storeKeys s.store).erase (s.order.getLast hordne) ++ [k] := by
      rw [storeKeys_storeInsert_of_not_mem item hknotin2, storeKeys_storeErase]
    refine ⟨hs.capEq, hs.capPos, ?_, ?_, ?_, ?_, ?_, hs.dttlZero, hs.mttlNonneg⟩
    · show (storeKeys (storeInsert (storeErase s.store _) k item)).Nodup
      rw [hkeys2]
      refine List.Nodup.append (hs.nodupKeys.erase _) (List.nodup_singleton k) ?_
      intro a ha hb
      rw [List.mem_singleton] at hb
      subst hb
      exact hk (List.erase_subset _ _ ha)
    · show (lruAccess s.order.dropLast k).Nodup
      exact nodup_lruAccess (hs.nodupOrder.sublist (List.dropLast_sublist _)) k
    · intro a
      show a ∈ lruAccess s.order.dropLast k ↔
        a ∈ storeKeys (storeInsert (storeErase s.store _) k item)
      rw [mem_lruAccess, mem_dropLast_of_nodup hordne hs.nodupOrder,
        hs.sameKeys a, hkeys2, List.mem_append, List.mem_singleton,
        hs.nodupKeys.mem_erase_iff]
      tauto
    · show ((storeInsert (storeErase s.store _) k item).length : Int) ≤ s.capacity
      rw [length_storeInsert_of_not_mem item hknotin2]
      have h1 := length_storeErase_of_mem hvmemkeys
      have h2 := hs.sizeLe
      omega
    · exact noTTL_storeInsert (noTTL_storeErase _ hs.noTTL) hitem
  · rw [setItemEvictInsert_noevict hcap]
    refine ⟨hs.capEq, hs.capPos, ?_, ?_, ?_, ?_, ?_, hs.dttlZero, hs.mttlNonneg⟩
    · show (storeKeys (storeInsert s.store k item)).Nodup
      rw [storeKeys_storeInsert_of_not_mem item hk]
      refine List.Nodup.append hs.nodupKeys (List.nodup_singleton k) ?_
      intro a ha hb
      rw [List.mem_singleton] at hb
      subst hb
      exact hk ha
    · exact nodup_lruAccess hs.nodupOrder k
    · intro a
      show a ∈ lruAccess s.order k ↔ a ∈ storeKeys (storeInsert s.store k item)
      rw [mem_lruAccess, hs.sameKeys a,
        storeKeys_storeInsert_of_not_mem item hk, List.mem_append,
        List.mem_singleton]
      tauto
    · show ((storeInsert s.store k item).length : Int) ≤ s.capacity
      rw [length_storeInsert_of_not_mem item hk]
      omega
    · exact noTTL_storeInsert hs.noTTL hitem

theorem inv_setItemCore {cap : Int} {s : CacheState K V} (hs : Inv cap s)
    (now : Int) (k : K) {item : Item V} (hitem : item.hasTTL = false) :
    Inv cap (setItemCore s now k item) := by
  cases hl : storeLookup s.store k with
  | none =>
    rw [setItemCore_of_lookup_none now hl]
    exact inv_setItemEvictInsert hs (storeLookup_eq_none_iff.1 hl) hitem
  | some ex =>
    have he : ex.isExpired now = false := noTTLStore_isExpired_false hs.noTTL hl now
    rw [setItemCore_replace hl he]
    have hkk : k ∈ storeKeys s.store := mem_storeKeys_of_lookup_some hl
    refine ⟨hs.capEq, hs.capPos, ?_, nodup_lruAccess hs.nodupOrder k, ?_, ?_, ?_,
      hs.dttlZero, hs.mttlNonneg⟩
    · show (storeKeys (storeInsert s.store k item)).Nodup
      rw [storeKeys_storeInsert_of_mem item hkk]
      exact hs.nodupKeys
    · intro a
      show a ∈ lruAccess s.order k ↔ a ∈ storeKeys (storeInsert s.store k item)
      rw [mem_lruAccess, hs.sameKeys a, storeKeys_storeInsert_of_mem item hkk]
      constructor
      · rintro (rfl | h1)
        · exact hkk
        · exact h1
      · exact Or.inr
    · show ((storeInsert s.store k item).length : Int) ≤ s.capacity
      rw [length_storeInsert_of_mem item hkk]
      exact hs.sizeLe
    · exact noTTL_storeInsert hs.noTTL hitem

theorem inv_cacheSetWithTTL {cap : Int} {s : CacheState K V} (hs : Inv cap s)
    (now : Int) (k : K) (v : V) {ttl : Int} (httl : ttl = 0) :
    Inv cap (cacheSetWithTTL s now k v ttl).2 := by
  subst httl
  have h0 : ¬ ((0 : Int) > s.maxTTL) := by
    have := hs.mttlNonneg
    omega
  show Inv cap (setItemCore s now k (mkItem v now (if (0 : Int) > s.maxTTL then s.maxTTL else 0)))
  rw [if_neg h0]
  exact inv_setItemCore hs now k (mkItem_zero_hasTTL v now)

theorem inv_cacheSet {cap : Int} {s : CacheState K V} (hs : Inv cap s)
    (now : Int) (k : K) (v : V) : Inv cap (cacheSet s now k v).2 :=
  inv_cacheSetWithTTL hs now k v hs.dttlZero

theorem inv_cacheSetBatchItem {cap : Int} {s : CacheState K V} (hs : Inv cap s)
    (now : Int) (k : K) (v : V) : Inv cap (cacheSetBatchItem s now k v).2 := by
  show Inv cap (setItemCore s now k (mkItem v now s.defaultTTL))
  rw [hs.dttlZero]
  exact inv_setItemCore hs now k (mkItem_zero_hasTTL v now)

theorem inv_cacheGet {cap : Int} {s : CacheState K V} (hs : Inv cap s)
    (now : Int) (k : K) : Inv cap (cacheGet s now k).2 := by
  cases hl : storeLookup s.store k with
  | none =>
    rw [cacheGet_none now hl]
    exact inv_counters hs _ _ _
  | some i =>
    have he : i.isExpired now = false := noTTLStore_isExpired_false hs.noTTL hl now
    rw [cacheGet_live hl he]
    exact inv_access hs (mem_storeKeys_of_lookup_some hl) _ _ _

theorem inv_cacheContains {cap : Int} {s : CacheState K V} (hs : Inv cap s)
    (now : Int) (k : K) : Inv cap (cacheContains s now k).2 := by
  cases hl : storeLookup s.store k with
  | none =>
    rw [cacheContains_none now hl]
    exact hs
  | some i =>
    have he : i.isExpired now = false := noTTLStore_isExpired_false hs.noTTL hl now
    rw [cacheContains_live hl he]
    exact hs

theorem inv_cacheDelete {cap : Int} {s : CacheState K V} (hs : Inv cap s)
    (k : K) : Inv cap (cacheDelete s k).2 := by
  cases hl : storeLookup s.store k with
  | none =>
    rw [cacheDelete_none hl]
    exact hs
  | some i =>
    rw [cacheDelete_some hl]
    refine ⟨hs.capEq, hs.capPos, ?_, hs.nodupOrder.erase k, ?_, ?_, ?_,
      hs.dttlZero, hs.mttlNonneg⟩
    · show (storeKeys (storeErase s.store k)).Nodup
      rw [storeKeys_storeErase]
      exact hs.nodupKeys.erase k
    · intro a
      show a ∈ s.order.erase k ↔ a ∈ storeKeys (storeErase s.store k)
      rw [hs.nodupOrder.mem_erase_iff, hs.sameKeys a, storeKeys_storeErase,
        hs.nodupKeys.mem_erase_iff]
    · show ((storeErase s.store k).length : Int) ≤ s.capacity
      have h1 := (storeErase_sublist s.store k).length_le
      have h2 := hs.sizeLe
      omega
    · exact noTTL_storeErase k hs.noTTL

theorem inv_cacheClear {cap : Int} {s : CacheState K V} (hs : Inv cap s) :
    Inv cap (cacheClear s) := by
  refine ⟨hs.capEq, hs.capPos, ?_, ?_, ?_, ?_, ?_, hs.dttlZero, hs.mttlNonneg⟩
  · exact List.nodup_nil
  · exact List.nodup_nil
  · intro a
    show a ∈ ([] : List K) ↔ a ∈ storeKeys ([] : Store K V)
    simp [storeKeys]
  · show ((0 : Nat) : Int) ≤ s.capacity
    have := hs.capPos
    omega
  · intro p hp
    cases hp

theorem inv_getBatchStep {cap : Int} {acc : List (K × V) × CacheState K V}
    (hs : Inv cap acc.2) (k : K) (now : Int) :
    Inv cap (getBatchStep acc k now).2 := by
  unfold getBatchStep
  cases hl : storeLookup acc.2.store k with
  | none =>
    rw [storageGet_none now hl]
    exact inv_counters hs _ _ _
  | some i =>
    have he : i.isExpired now = false := noTTLStore_isExpired_false hs.noTTL hl now
    rw [storageGet_live hl he]
    simp only [he, Bool.false_eq_true, if_false]
    exact inv_access hs (mem_storeKeys_of_lookup_some hl) _ _ _

theorem inv_getBatch_fold {cap : Int} (now : Int) (keys : List K) :
    ∀ acc : List (K × V) × CacheState K V, Inv cap acc.2 →
      Inv cap (keys.foldl (fun a k => getBatchStep a k now) acc).2 := by
  induction keys with
  | nil =>
    intro acc hs
    exact hs
  | cons k rest ih =>
    intro acc hs
    rw [List.foldl_cons]
    exact ih _ (inv_getBatchStep hs k now)

theorem inv_setBatch_fold {cap : Int} (now : Int) (items : List (K × V)) :
    ∀ acc : Int × CacheState K V, Inv cap acc.2 →
      Inv cap ((items.foldl
        (fun acc p =>
          ((if (cacheSetBatchItem acc.2 now p.1 p.2).1 then acc.1 + 1 else acc.1),
           (cacheSetBatchItem acc.2 now p.1 p.2).2)) acc)).2 := by
  induction items with
  | nil =>
    intro acc hs
    exact hs
  | cons p rest ih =>
    intro acc hs
    rw [List.foldl_cons]
    exact ih _ (inv_cacheSetBatchItem hs now p.1 p.2)

theorem inv_deleteBatch_fold {cap : Int} (keys : List K) :
    ∀ acc : Int × CacheState K V, Inv cap acc.2 →
      Inv cap ((keys.foldl
        (fun acc k =>
          ((if (cacheDelete acc.2 k).1 then acc.1 + 1 else acc.1),
           (cacheDelete acc.2 k).2)) acc)).2 := by
  induction keys with
  | nil =>
    intro acc hs
    exact hs
  | cons k rest ih =>
    intro acc hs
    rw [List.foldl_cons]
    exact ih _ (inv_cacheDelete hs k)

/-- A public operation whose explicit TTL argument (if any) is zero. -/
def opNoTTL : Op K V → Bool
  | .setWithTTL _ _ _ ttl => decide (ttl = 0)
  | _ => true

theorem inv_step {cap : Int} {s : CacheState K V} (hs : Inv cap s) {op : Op K V}
    (hop : opNoTTL op = true) : Inv cap (step s op) := by
  cases op with
  | get now k => exact inv_cacheGet hs now k
  | set now k v => exact inv_cacheSet hs now k v
  | setWithTTL now k v ttl =>
    have httl : ttl = 0 := by simpa [opNoTTL] using hop
    exact inv_cacheSetWithTTL hs now k v httl
  | del k => exact inv_cacheDelete hs k
  | clear => exact inv_cacheClear hs
  | contains now k => exact inv_cacheContains hs now k
  | getBatch now keys => exact inv_getBatch_fold now keys _ hs
  | setBatch now items => exact inv_setBatch_fold now items _ hs
  | deleteBatch keys => exact inv_deleteBatch_fold keys _ hs

theorem inv_runOps {cap : Int} {s : CacheState K V} (hs : Inv cap s)
    {ops : List (Op K V)} (hops : ∀ op ∈ ops, opNoTTL op = true) :
    Inv cap (runOps s ops) := by
  induction ops generalizing s with
  | nil => exact hs
  | cons op rest ih =>
    show Inv cap (runOps (step s op) rest)
    exact ih (inv_step hs (hops op (List.mem_cons_self _ _)))
      (fun o ho => hops o (List.mem_cons_of_mem _ ho))

theorem inv_freshCache (cap mttl : Int) (hm : 0 ≤ mttl) :
    Inv (if cap ≤ 0 then 100 else cap) (freshCache cap 0 mttl : CacheState K V) := by
  refine ⟨rfl, ?_, List.nodup_nil, List.nodup_nil, ?_, ?_, ?_, rfl, hm⟩
  · show (1 : Int) ≤ (if cap ≤ 0 then 100 else cap)
    split <;> omega
  · intro a
    show a ∈ ([] : List K) ↔ a ∈ storeKeys ([] : Store K V)
    simp [storeKeys]
  · show ((0 : Nat) : Int) ≤ (if cap ≤ 0 then 100 else cap)
    split <;> omega
  · intro p hp
    cases hp

theorem order_length_eq_of_inv {cap : Int} {s : CacheState K V}
    (hs : Inv cap s) : s.order.length = s.store.length := by
  have hperm : List.Perm s.order (storeKeys s.store) :=
    (List.perm_ext_iff_of_nodup hs.nodupOrder hs.nodupKeys).2 hs.sameKeys
  have := hperm.length_eq
  rw [length_storeKeys] at this
  exact this

/-! ### Concrete histories used in the claim evaluations -/

/-- Capacity-1 history whose expired entry leaves a stale policy victim and
then overflows the store: `set_with_ttl(1,10,-1); get(1); set(2,20); set(3,30)`. -/
def cexOpsOverflow : List (Op Nat Nat) :=
  [Op.setWithTTL 0 1 10 (-1), Op.get 0 1, Op.set 0 2 20, Op.set 0 3 30]

/-- Capacity-1 history after which store and policy disagree:
`set_with_ttl(1,10,-1); get(1)`. -/
def cexOpsDrift : List (Op Nat Nat) :=
  [Op.setWithTTL 0 1 10 (-1), Op.get 0 1]

/-- Reachable capacity-1 state whose store holds only key 2 while the LRU
order still tracks the stale key 1 at the least-recent end. -/
def cexStateStale : CacheState Nat Nat :=
  runOps (freshCache 1 0 day) [Op.setWithTTL 0 1 10 (-1), Op.get 0 1, Op.set 0 2 20]

/-- An expiry-free 12-operation history exercising every operation kind. -/
def witnessOps : List (Op Nat Nat) :=
  [Op.set 0 1 10, Op.set 1 2 20, Op.get 2 1, Op.setWithTTL 3 3 30 0,
   Op.set 4 4 40, Op.contains 5 2, Op.del 2,
   Op.setBatch 6 [(5, 50), (6, 60)], Op.getBatch 7 [1, 5, 9],
   Op.deleteBatch [1, 9], Op.clear, Op.set 8 7 70]

/-! ### Claim C1 -/

/-- C1 (as stated, refuted): it is not the case that after every sequence of
public operations on a fresh cache `size()` is at most the configured
capacity.  With capacity 1, `set_with_ttl(1,10,-1); get(1); set(2,20);
set(3,30)` leaves two entries in the store: the on-read purge of the expired
key 1 leaves the policy tracking it, the later eviction selects this stale
victim, the store delete is a no-op and the insert overflows capacity. -/
theorem c1_counterexample :
    ¬ (∀ (cap dttl mttl : Int) (ops : List (Op Nat Nat)),
        cacheSize (runOps (freshCache cap dttl mttl) ops) ≤
          (freshCache cap dttl mttl : CacheState Nat Nat).capacity) := by
  intro h
  exact absurd (h 1 0 day cexOpsOverflow) (by decide)

/-- C1 (amended): provided no entry ever expires - `default_ttl = 0`,
`max_ttl ≥ 0` and every `set_with_ttl` of the history passes `ttl = 0` -
after every sequence of public operations on a fresh cache, `size()` is at
most the configured capacity. -/
theorem c1_amended_size_le_capacity (cap mttl : Int) (hm : 0 ≤ mttl)
    (ops : List (Op K V)) (hops : ∀ op ∈ ops, opNoTTL op = true) :
    cacheSize (runOps (freshCache cap 0 mttl) ops) ≤
      (freshCache cap 0 mttl : CacheState K V).capacity := by
  have hinv := inv_runOps (inv_freshCache cap mttl hm) hops
  show ((runOps (freshCache cap 0 mttl) ops).store.length : Int) ≤ _
  have h1 := hinv.sizeLe
  have h2 := hinv.capEq
  rw [show (freshCache cap 0 mttl : CacheState K V).capacity
      = (if cap ≤ 0 then 100 else cap) from rfl, ← h2]
  exact h1

/-- C1 witness: the amended theorem instantiated at capacity 3 and the
concrete expiry-free 12-operation history. -/
theorem c1_amended_witness :
    cacheSize (runOps (freshCache 3 0 day : CacheState Nat Nat) witnessOps) ≤
      (freshCache 3 0 day : CacheState Nat Nat).capacity :=
  c1_amended_size_le_capacity 3 day (by decide) witnessOps (by decide)

/-! ### Claim C2 -/

/-- C2 (as stated, refuted): it is not the case that after every sequence of
public operations the policy's size and tracked key set agree with the
store's.  After `set_with_ttl(1,10,-1); get(1)` the store is empty (the
on-read purge removed the expired entry) but the LRU policy still tracks
key 1: the sizes are 1 and 0. -/
theorem c2_counterexample :
    ¬ (∀ (cap dttl mttl : Int) (ops : List (Op Nat Nat)),
        (runOps (freshCache cap dttl mttl) ops).order.length =
          (runOps (freshCache cap dttl mttl) ops).store.length ∧
        (∀ a, a ∈ (runOps (freshCache cap dttl mttl) ops).order ↔
            a ∈ storeKeys (runOps (freshCache cap dttl mttl) ops).store)) := by
  intro h
  exact absurd (h 1 0 day cexOpsDrift).1 (by decide)

/-- C2 (amended): provided no entry ever expires - `default_ttl = 0`,
`max_ttl ≥ 0` and every `set_with_ttl` of the history passes `ttl = 0` -
after every sequence of public operations the policy's tracked key set
equals the store's key set, and their sizes (hence also the coordinator's
`size()`, which is the store's) agree. -/
theorem c2_amended_sizes_agree (cap mttl : Int) (hm : 0 ≤ mttl)
    (ops : List (Op K V)) (hops : ∀ op ∈ ops, opNoTTL op = true) :
    (runOps (freshCache cap 0 mttl) ops).order.length =
      (runOps (freshCache cap 0 mttl) ops).store.length ∧
    (∀ a, a ∈ (runOps (freshCache cap 0 mttl) ops).order ↔
        a ∈ storeKeys (runOps (freshCache cap 0 mttl) ops).store) := by
  have hinv := inv_runOps (inv_freshCache cap mttl hm) hops
  exact ⟨order_length_eq_of_inv hinv, hinv.sameKeys⟩

/-- C2 witness: the amended theorem instantiated at capacity 3 and the
concrete expiry-free 12-operation history. -/
theorem c2_amended_witness :
    (runOps (freshCache 3 0 day : CacheState Nat Nat) witnessOps).order.length =
      (runOps (freshCache 3 0 day : CacheState Nat Nat) witnessOps).store.length :=
  (c2_amended_sizes_agree 3 day (by decide) witnessOps (by decide)).1

/-! ### Claim C3 -/

/-- C3 (as stated, refuted): from the reachable state `cexStateStale` the
LRU victim is key 1, which is absent from the store, yet the next `set`
still increments `evictions` - contradicting the claim that `evictions`
increments only on an actual removal of a live entry. -/
theorem c3_counterexample :
    (lruEvict cexStateStale.order).1 = some 1 ∧
    storeLookup cexStateStale.store 1 = none ∧
    (cacheSet cexStateStale 0 3 30).2.evictions = cexStateStale.evictions + 1 := by
  decide

/-- C3 (amended): when `policy.evict()` returns a victim that is no longer
present in the store, deleting it from the store is a no-op (the new state
inserts into the unchanged store), but the `evictions` counter is still
incremented - the code bumps it whenever a victim is returned, regardless of
store presence. -/
theorem c3_amended_evict_absent_victim {s : CacheState K V} {now : Int}
    {k : K} {v : V} {ttl : Int} {victim : K} {order' : List K}
    (hk : storeLookup s.store k = none)
    (hcap : (s.store.length : Int) ≥ s.capacity)
    (hev : lruEvict s.order = (some victim, order'))
    (hvic : storeLookup s.store victim = none) :
    (cacheSetWithTTL s now k v ttl).2 =
      { s with
          store := storeInsert s.store k
            (mkItem v now (if ttl > s.maxTTL then s.maxTTL else ttl)),
          order := lruAccess order' k,
          evictions := s.evictions + 1 } := by
  show setItemCore s now k
      (mkItem v now (if ttl > s.maxTTL then s.maxTTL else ttl)) = _
  rw [setItemCore_of_lookup_none now hk, setItemEvictInsert_evict hcap hev,
    storageDelete_of_not_mem hvic]

/-- C3 witness: the amended theorem instantiated at the reachable stale
state, key 3 and ttl 0. -/
theorem c3_amended_witness :
    (cacheSetWithTTL cexStateStale 0 3 30 0).2 =
      { cexStateStale with
          store := storeInsert cexStateStale.store 3
            (mkItem 30 0
              (if (0 : Int) > cexStateStale.maxTTL then cexStateStale.maxTTL else 0)),
          order := lruAccess [2] 3,
          evictions := cexStateStale.evictions + 1 } :=
  @c3_amended_evict_absent_victim Nat Nat _ cexStateStale 0 3 30 0 1 [2]
    (by decide) (by decide) (by decide) (by decide)

/-! ### Claim C4 -/

/-- The capacity-3 LRU end-to-end scenario: `set k1; set k2; set k3; get k1;
set k4` (keys 1..4, values 11,22,33,44). -/
def scenarioState : CacheState Nat Nat :=
  runOps (freshCache 3 0 day)
    [Op.set 0 1 11, Op.set 0 2 22, Op.set 0 3 33, Op.get 0 1, Op.set 0 4 44]

/-- C4: for the LRU policy, after `access(a), access(b), access(c),
access(a)` on an initially empty policy with `a`, `b`, `c` distinct,
`evict()` returns `b`; and in the capacity-3 LRU cache scenario
`set k1; set k2; set k3; get k1; set k4`, exactly `k2` is evicted:
`get k2` misses, `get k1`, `get k3`, `get k4` hit with their values, and
`evictions = 1`. -/
theorem c4_lru_order_and_scenario :
    (∀ (a b c : Nat), a ≠ b → b ≠ c → a ≠ c →
      (lruEvict (lruAccess (lruAccess (lruAccess (lruAccess [] a) b) c) a)).1
        = some b) ∧
    ((cacheGet scenarioState 0 2).1 = none ∧
     (cacheGet scenarioState 0 1).1 = some 11 ∧
     (cacheGet scenarioState 0 3).1 = some 33 ∧
     (cacheGet scenarioState 0 4).1 = some 44 ∧
     scenarioState.evictions = 1) := by
  constructor
  · intro a b c hab hbc hac
    have hba : b ≠ a := hab.symm
    have hca : c ≠ a := hac.symm
    have hcb : c ≠ b := hbc.symm
    simp [lruAccess, lruEvict, hab, hbc, hac, hba, hca, hcb, List.erase_cons]
  · decide

/-- C4 witness: the distinctness hypotheses discharged at the concrete keys
0, 1, 2. -/
theorem c4_witness :
    (lruEvict (lruAccess (lruAccess (lruAccess (lruAccess [] 0) 1) 2) 0)).1
      = some 1 :=
  c4_lru_order_and_scenario.1 0 1 2 (by decide) (by decide) (by decide)

/-! ### Claim C5 -/

theorem storeLookup_setItemEvictInsert_self (s : CacheState K V) (k : K)
    (item : Item V) :
    storeLookup (setItemEvictInsert s k item).store k = some item :=
  storeLookup_storeInsert_self _ _ _

/-- Every path through the shared set body ends by inserting the prepared
item, so looking the key up in the resulting store returns that item. -/
theorem storeLookup_setItemCore_self (s : CacheState K V) (now : Int) (k : K)
    (item : Item V) :
    storeLookup (setItemCore s now k item).store k = some item := by
  cases hl : storeLookup s.store k with
  | none =>
    rw [setItemCore_of_lookup_none now hl]
    exact storeLookup_setItemEvictInsert_self _ _ _
  | some ex =>
    by_cases he : ex.isExpired now = true
    · unfold setItemCore
      rw [storageGet_expired hl he]
      exact storeLookup_setItemEvictInsert_self _ _ _
    · rw [Bool.not_eq_true] at he
      rw [setItemCore_replace hl he]
      exact storeLookup_storeInsert_self _ _ _

/-- C5: an entry stored with `ttl = 0` carries no expiry and is returned by
`get` at any later instant (counting a hit), while an entry stored with a
negative `ttl` is already expired: `get` immediately afterwards returns
not-found and counts a miss. -/
theorem c5_zero_ttl_never_negative_ttl_expired
    (s : CacheState K V) (now : Int) (k : K) (v : V) :
    (0 ≤ s.maxTTL →
      ∀ t : Int,
        (cacheGet (cacheSetWithTTL s now k v 0).2 t k).1 = some v ∧
        (cacheGet (cacheSetWithTTL s now k v 0).2 t k).2.hits =
          (cacheSetWithTTL s now k v 0).2.hits + 1) ∧
    (∀ ttl : Int, ttl < 0 →
      (cacheGet (cacheSetWithTTL s now k v ttl).2 now k).1 = none ∧
      (cacheGet (cacheSetWithTTL s now k v ttl).2 now k).2.misses =
        (cacheSetWithTTL s now k v ttl).2.misses + 1) := by
  constructor
  · intro hm t
    have h0 : ¬ ((0 : Int) > s.maxTTL) := by omega
    have hl : storeLookup (cacheSetWithTTL s now k v 0).2.store k
        = some (mkItem v now (if (0 : Int) > s.maxTTL then s.maxTTL else 0)) :=
      storeLookup_setItemCore_self s now k _
    rw [if_neg h0] at hl
    have he : (mkItem v now 0).isExpired t = false := by
      simp [mkItem, Item.isExpired]
    rw [cacheGet_live hl he]
    constructor
    · show some (mkItem v now 0).value = some v
      simp [mkItem]
    · rfl
  · intro ttl httl
    obtain ⟨ttl1, httl1eq, httl1⟩ :
        ∃ u, (if ttl > s.maxTTL then s.maxTTL else ttl) = u ∧ u < 0 := by
      refine ⟨_, rfl, ?_⟩
      split <;> omega
    have hl : storeLookup (cacheSetWithTTL s now k v ttl).2.store k
        = some (mkItem v now (if ttl > s.maxTTL then s.maxTTL else ttl)) :=
      storeLookup_setItemCore_self s now k _
    rw [httl1eq] at hl
    have he : (mkItem v now ttl1).isExpired now = true := by
      simp [mkItem, httl1.ne, Item.isExpired]
      omega
    rw [cacheGet_expired hl he]
    exact ⟨rfl, rfl⟩

/-- C5 witness: the theorem instantiated on a fresh capacity-5 cache, with
the zero-TTL entry read at a much later instant and the `-7` TTL entry read
immediately. -/
theorem c5_witness :
    (cacheGet (cacheSetWithTTL (freshCache 5 0 day : CacheState Nat Nat)
        0 1 10 0).2 1000000000000 1).1 = some 10 ∧
    (cacheGet (cacheSetWithTTL (freshCache 5 0 day : CacheState Nat Nat)
        0 2 20 (-7)).2 0 2).1 = none :=
  ⟨((c5_zero_ttl_never_negative_ttl_expired (freshCache 5 0 day) 0 1 10).1
      (by decide) 1000000000000).1,
   ((c5_zero_ttl_never_negative_ttl_expired (freshCache 5 0 day) 0 2 20).2
      (-7) (by decide)).1⟩

/-! ### Claim C6 -/

/-- Whether `k` currently holds a live (present and unexpired) entry. -/
def liveKey (st : Store K V) (now : Int) (k : K) : Bool :=
  match storeLookup st k with
  | some i => !i.isExpired now
  | none => false

theorem liveKey_of_lookup_none {st : Store K V} {k : K} (now : Int)
    (hl : storeLookup st k = none) : liveKey st now k = false := by
  unfold liveKey
  rw [hl]

theorem liveKey_of_lookup_some {st : Store K V} {k : K} {i : Item V} (now : Int)
    (hl : storeLookup st k = some i) : liveKey st now k = !i.isExpired now := by
  unfold liveKey
  rw [hl]

theorem getBatchStep_live {acc : List (K × V) × CacheState K V} {k : K}
    {i : Item V} {now : Int}
    (hl : storeLookup acc.2.store k = some i) (he : i.isExpired now = false) :
    getBatchStep acc k now =
      (resInsert acc.1 k i.value,
       { acc.2 with order := lruAccess acc.2.order k,
                    hits := acc.2.hits + 1 }) := by
  unfold getBatchStep
  rw [storageGet_live hl he]
  simp [he]

theorem getBatchStep_absent {acc : List (K × V) × CacheState K V} {k : K}
    (now : Int) (hl : storeLookup acc.2.store k = none) :
    getBatchStep acc k now =
      (acc.1, { acc.2 with misses := acc.2.misses + 1 }) := by
  unfold getBatchStep
  rw [storageGet_none now hl]

theorem getBatchStep_expired {acc : List (K × V) × CacheState K V} {k : K}
    {i : Item V} {now : Int}
    (hl : storeLookup acc.2.store k = some i) (he : i.isExpired now = true) :
    getBatchStep acc k now =
      (acc.1, { acc.2 with store := storeErase acc.2.store k,
                           misses := acc.2.misses + 1 }) := by
  unfold getBatchStep
  rw [storageGet_expired hl he]

theorem liveKey_storeErase_not_live {st : Store K V} {now : Int} {k : K}
    (hnd : (storeKeys st).Nodup) (hfalse : liveKey st now k = false) (a : K) :
    liveKey (storeErase st k) now a = liveKey st now a := by
  by_cases ha : a = k
  · subst ha
    rw [liveKey_of_lookup_none now (storeLookup_storeErase_self hnd), hfalse]
  · unfold liveKey
    rw [storeLookup_storeErase_of_ne ha]

/-- The `GetBatch` loop over an explicit accumulator. -/
def getBatchFold (now : Int) (ks : List K)
    (acc : List (K × V) × CacheState K V) : List (K × V) × CacheState K V :=
  ks.foldl (fun a k2 => getBatchStep a k2 now) acc

theorem cacheGetBatch_eq_fold (s : CacheState K V) (now : Int) (ks : List K) :
    cacheGetBatch s now ks = getBatchFold now ks ([], s) := rfl

theorem getBatchFold_cons (now : Int) (k : K) (ks : List K)
    (acc : List (K × V) × CacheState K V) :
    getBatchFold now (k :: ks) acc = getBatchFold now ks (getBatchStep acc k now) :=
  rfl

/-- Specification of the `GetBatch` loop: hits count the occurrences of
keys live in the original store, misses count the others, the result map
holds exactly the distinct live input keys, and its keys are
duplicate-free.  `liveKey` is stable through the loop because the loop
only purges already-dead entries. -/
theorem getBatchFold_spec (now : Int) (orig : Store K V) :
    ∀ (ks : List K) (res : List (K × V)) (st : CacheState K V),
      (storeKeys st.store).Nodup →
      (∀ a, liveKey st.store now a = liveKey orig now a) →
      ((getBatchFold now ks (res, st)).2.hits =
          st.hits + (ks.countP (fun a => liveKey orig now a) : Int)) ∧
      ((getBatchFold now ks (res, st)).2.misses =
          st.misses + (ks.countP (fun a => !liveKey orig now a) : Int)) ∧
      (∀ a, (resLookup (getBatchFold now ks (res, st)).1 a).isSome =
          ((resLookup res a).isSome || (decide (a ∈ ks) && liveKey orig now a))) ∧
      ((res.map Prod.fst).Nodup →
        ((getBatchFold now ks (res, st)).1.map Prod.fst).Nodup) := by
  intro ks
  induction ks with
  | nil =>
    intro res st hnd hpres
    refine ⟨by simp [getBatchFold], by simp [getBatchFold], ?_, fun h => h⟩
    intro a
    simp [getBatchFold]
  | cons k ks ih =>
    intro res st hnd hpres
    cases hl : storeLookup st.store k with
    | none =>
      have hlk : liveKey orig now k = false := by
        rw [← hpres k, liveKey_of_lookup_none now hl]
      rw [getBatchFold_cons, getBatchStep_absent now hl]
      obtain ⟨ihh, ihm, ihmem, ihnd⟩ :=
        ih res { st with misses := st.misses + 1 } hnd hpres
      refine ⟨?_, ?_, ?_, ihnd⟩
      · rw [ihh, List.countP_cons]
        simp [hlk]
      · rw [ihm, List.countP_cons]
        simp [hlk]
        omega
      · intro a
        rw [ihmem a]
        by_cases hak : a = k
        · subst hak
          simp [hlk]
        · simp [List.mem_cons, hak]
    | some i =>
      cases he : i.isExpired now with
      | true =>
        have hlfalse : liveKey st.store now k = false := by
          rw [liveKey_of_lookup_some now hl, he]
          rfl
        have hlk : liveKey orig now k = false := by rw [← hpres k, hlfalse]
        rw [getBatchFold_cons, getBatchStep_expired hl he]
        have hnd2 : (storeKeys (storeErase st.store k)).Nodup := by
          rw [storeKeys_storeErase]
          exact hnd.erase k
        have hpres2 : ∀ a, liveKey (storeErase st.store k) now a = liveKey orig now a :=
          fun a => (liveKey_storeErase_not_live hnd hlfalse a).trans (hpres a)
        obtain ⟨ihh, ihm, ihmem, ihnd⟩ :=
          ih res { st with store := storeErase st.store k,
                           misses := st.misses + 1 } hnd2 hpres2
        refine ⟨?_, ?_, ?_, ihnd⟩
        · rw [ihh, List.countP_cons]
          simp [hlk]
        · rw [ihm, List.countP_cons]
          simp [hlk]
          omega
        · intro a
          rw [ihmem a]
          by_cases hak : a = k
          · subst hak
            simp [hlk]
          · simp [List.mem_cons, hak]
      | false =>
        have hlk : liveKey orig now k = true := by
          rw [← hpres k, liveKey_of_lookup_some now hl, he]
          rfl
        rw [getBatchFold_cons, getBatchStep_live hl he]
        obtain ⟨ihh, ihm, ihmem, ihnd⟩ :=
          ih (resInsert res k i.value)
            { st with order := lruAccess st.order k, hits := st.hits + 1 }
            hnd hpres
        refine ⟨?_, ?_, ?_, ?_⟩
        · rw [ihh, List.countP_cons]
          simp [hlk]
          omega
        · rw [ihm, List.countP_cons]
          simp [hlk]
        · intro a
          rw [ihmem a]
          by_cases hak : a = k
          · subst hak
            rw [resLookup_resInsert_self]
            simp [hlk]
          · rw [resLookup_resInsert_of_ne _ hak]
            simp [List.mem_cons, hak]
        · intro hres
          exact ihnd (nodup_resKeys_resInsert _ hres)

/-- C6: for every input key list, the `get_batch` output map holds exactly
one entry per distinct input key that is present and not expired (its key
list is duplicate-free), `hits` grows by the number of occurrences of live
keys (duplicates each count), and `misses` grows by the number of
occurrences of absent or expired keys, which are omitted from the output. -/
theorem c6_get_batch_counts (s : CacheState K V) (now : Int) (ks : List K)
    (hnd : (storeKeys s.store).Nodup) :
    (∀ a, (resLookup (cacheGetBatch s now ks).1 a).isSome =
        (decide (a ∈ ks) && liveKey s.store now a)) ∧
    ((cacheGetBatch s now ks).1.map Prod.fst).Nodup ∧
    ((cacheGetBatch s now ks).2.hits =
        s.hits + (ks.countP (fun a => liveKey s.store now a) : Int)) ∧
    ((cacheGetBatch s now ks).2.misses =
        s.misses + (ks.countP (fun a => !liveKey s.store now a) : Int)) := by
  obtain ⟨hh, hm, hmem, hnodup⟩ :=
    getBatchFold_spec now s.store ks [] s hnd (fun a => rfl)
  rw [cacheGetBatch_eq_fold]
  refine ⟨?_, hnodup (by simp), hh, hm⟩
  intro a
  rw [hmem a]
  simp [resLookup]

/-- A concrete capacity-10 state holding a live entry (key 1) and an
entry expired at instant 6 (key 2). -/
def batchState : CacheState Nat Nat :=
  { store := [(1, ⟨10, 0, false⟩), (2, ⟨20, 5, true⟩)]
    order := [2, 1]
    hits := 0
    misses := 0
    evictions := 0
    capacity := 10
    defaultTTL := 0
    maxTTL := day }

/-- C6 witness: the theorem instantiated at `batchState`, instant 6 and
the key list `[1, 2, 1, 9, 2]` (key 1 live and duplicated, key 2 expired
and duplicated, key 9 absent). -/
theorem c6_witness :
    (resLookup (cacheGetBatch batchState 6 [1, 2, 1, 9, 2]).1 1).isSome =
      (decide ((1 : Nat) ∈ [1, 2, 1, 9, 2]) && liveKey batchState.store 6 1) ∧
    (cacheGetBatch batchState 6 [1, 2, 1, 9, 2]).2.hits =
      batchState.hits +
        (([1, 2, 1, 9, 2].countP (fun a => liveKey batchState.store 6 a) : Nat) : Int) :=
  ⟨(c6_get_batch_counts batchState 6 [1, 2, 1, 9, 2] (by decide)).1 1,
   (c6_get_batch_counts batchState 6 [1, 2, 1, 9, 2] (by decide)).2.2.1⟩

/-! ### Claim C7 -/

/-- `startCleanup`'s tick period: `defaultTTL / 2` clamped into
`[1s, 1min]` (Go durations in nanoseconds). -/
def cleanupInterval (defaultTTL : Int) : Int :=
  let i1 := defaultTTL / 2
  let i2 := if i1 > minute then minute else i1
  if i2 < second then second else i2

/-- Whether `New` starts the background sweeper:
`if config.DefaultTTL > 0 { c.startCleanup() }`. -/
def sweeperStarted (defaultTTL : Int) : Bool := decide (defaultTTL > 0)

/-- C7: when `default_ttl > 0` the sweeper is started and its tick period
equals `max(1s, min(1min, default_ttl / 2))`; when `default_ttl = 0` no
sweeper is started. -/
theorem c7_cleanup_interval :
    (∀ ttl : Int, 0 < ttl →
      cleanupInterval ttl = max second (min minute (ttl / 2)) ∧
      sweeperStarted ttl = true) ∧
    sweeperStarted 0 = false := by
  constructor
  · intro ttl h
    constructor
    · show (if (if ttl / 2 > minute then minute else ttl / 2) < second then second
          else (if ttl / 2 > minute then minute else ttl / 2)) = _
      rw [max_def, min_def]
      split_ifs <;> simp only [second, minute] at * <;> omega
    · simpa [sweeperStarted] using h
  · rfl

/-- C7 witness: the sweeper hypotheses discharged at a 5-second default
TTL. -/
theorem c7_witness :
    cleanupInterval (5 * second) = max second (min minute (5 * second / 2)) ∧
    sweeperStarted (5 * second) = true :=
  c7_cleanup_interval.1 (5 * second) (by decide)

/-! ### Claim C8 -/

/-- C8: an entry that is expired but not yet purged is still reported by
`keys()` (which is the unfiltered store key list), while `contains` and
`get` report it absent. -/
theorem c8_keys_include_expired {s : CacheState K V} {k : K} {i : Item V}
    {now : Int} (hl : storeLookup s.store k = some i)
    (he : i.isExpired now = true) :
    k ∈ cacheKeys s ∧ (cacheContains s now k).1 = false ∧
      (cacheGet s now k).1 = none ∧ cacheKeys s = storeKeys s.store := by
  refine ⟨mem_storeKeys_of_lookup_some hl, ?_, ?_, rfl⟩
  · rw [cacheContains_expired hl he]
  · rw [cacheGet_expired hl he]

/-- C8 witness: key 2 of `batchState` is expired at instant 6, is listed by
`keys()`, and is reported absent by `contains` and `get`. -/
theorem c8_witness :
    (2 : Nat) ∈ cacheKeys batchState ∧
      (cacheContains batchState 6 2).1 = false ∧
      (cacheGet batchState 6 2).1 = none ∧
      cacheKeys batchState = storeKeys batchState.store :=
  @c8_keys_include_expired Nat Nat _ batchState 2 ⟨20, 5, true⟩ 6
    (by decide) (by decide)

/-! ### Claim C9 -/

/-- C9: `contains` on a present-but-expired entry returns `false` and, as a
side effect, removes the entry from the store (the size drops by one) while
leaving the order list and all three counters untouched; on a live or an
absent key it changes no state at all. -/
theorem c9_contains_frame (s : CacheState K V) (now : Int) (k : K) :
    (∀ i, storeLookup s.store k = some i → i.isExpired now = true →
        cacheContains s now k =
          (false, { s with store := storeErase s.store k }) ∧
        (storeErase s.store k).length + 1 = s.store.length) ∧
    (∀ i, storeLookup s.store k = some i → i.isExpired now = false →
        cacheContains s now k = (true, s)) ∧
    (storeLookup s.store k = none → cacheContains s now k = (false, s)) := by
  refine ⟨?_, ?_, ?_⟩
  · intro i hl he
    exact ⟨cacheContains_expired hl he,
      length_storeErase_of_mem (mem_storeKeys_of_lookup_some hl)⟩
  · intro i hl he
    exact cacheContains_live hl he
  · intro hl
    exact cacheContains_none now hl

/-- C9 witness: in `batchState` at instant 6, `contains` purges the expired
key 2 (size 2 to 1) leaving order and counters alone, and leaves the state
unchanged on the live key 1 and on the absent key 9. -/
theorem c9_witness :
    (cacheContains batchState 6 2 =
        (false, { batchState with store := storeErase batchState.store 2 }) ∧
      (storeErase batchState.store 2).length + 1 = batchState.store.length) ∧
    cacheContains batchState 6 1 = (true, batchState) ∧
    cacheContains batchState 6 9 = (false, batchState) :=
  ⟨(c9_contains_frame batchState 6 2).1 ⟨20, 5, true⟩ (by decide) (by decide),
   (c9_contains_frame batchState 6 1).2.1 ⟨10, 0, false⟩ (by decide) (by decide),
   (c9_contains_frame batchState 6 9).2.2 (by decide)⟩

/-! ### Claim C10 -/

/-- Lifecycle state of the background sweeper: whether `New` created the
cleanup ticker, and whether the `stopCleanup` channel has been closed. -/
structure CloseState where
  tickerExists : Bool
  stopClosed : Bool
  deriving Repr, DecidableEq

/-- Lifecycle state right after `New`: the ticker exists iff
`defaultTTL > 0` (only then does `New` call `startCleanup`); the stop
channel is open. -/
def newCloseState (defaultTTL : Int) : CloseState :=
  { tickerExists := decide (defaultTTL > 0), stopClosed := false }

/-- `cache.Close`: `if c.cleanupTicker != nil { close(c.stopCleanup) }`.
Closing an already-closed Go channel panics at run time; `none` models
that panic. -/
def cacheClose (s : CloseState) : Option CloseState :=
  if s.tickerExists then
    if s.stopClosed then none
    else some { s with stopClosed := true }
  else some s

/-- C10: on a cache constructed with `default_ttl = 0`, `close()` is a
no-op (no ticker exists and the stop channel stays open); with
`default_ttl > 0` the first `close()` closes the stop channel and a second
`close()` panics - `close` is not idempotent. -/
theorem c10_close_not_idempotent (ttl : Int) :
    (ttl = 0 → cacheClose (newCloseState ttl) = some (newCloseState ttl)) ∧
    (0 < ttl →
      cacheClose (newCloseState ttl) = some ⟨true, true⟩ ∧
      cacheClose ⟨true, true⟩ = none) := by
  constructor
  · intro h
    subst h
    rfl
  · intro h
    have hdec : decide ((0 : Int) < ttl) = true := by simpa using h
    constructor
    · show cacheClose ⟨decide (ttl > 0), false⟩ = some ⟨true, true⟩
      show cacheClose ⟨decide ((0 : Int) < ttl), false⟩ = some ⟨true, true⟩
      rw [hdec]
      rfl
    · rfl

/-- C10 witness: the theorem instantiated at `default_ttl = 0` (no-op) and
at a positive `default_ttl` of 5 (second close panics). -/
theorem c10_witness :
    cacheClose (newCloseState 0) = some (newCloseState 0) ∧
    (cacheClose (newCloseState 5) = some ⟨true, true⟩ ∧
      cacheClose ⟨true, true⟩ = none) :=
  ⟨(c10_close_not_idempotent 0).1 rfl, (c10_close_not_idempotent 5).2 (by decide)⟩

end CachingLib
